import Mathlib

/-!
Shallow embedding of the sequence-preprocessing core of the GA-DPAMSA
repository (`datasets/orthodb_preparation/data_utils.py` and
`dataset_module/fasta_dataset.py`), together with theorems checking the
specification's claims about it.

Text is modelled as `List Char`; a FASTA record is a pair
`(header, sequence) : List Char × List Char`.  Randomness is made explicit:
each call that Python serves from the global RNG takes the drawn value as an
extra argument (a `Nat` for `random.randint`, a rational `u ∈ [0,1)` for
`random.random()` inside `random.choices`).
-/

namespace GA

/-! ### Python string primitives -/

/-- The ASCII characters stripped by Python's `str.strip()`. -/
def pyIsSpace (c : Char) : Bool :=
  c = ' ' || c = '\t' || c = '\n' || c = '\r' || c = '\x0b' || c = '\x0c'

/-- Python `str.strip()`: remove leading and trailing whitespace. -/
def pyStrip (l : List Char) : List Char :=
  ((l.dropWhile pyIsSpace).reverse.dropWhile pyIsSpace).reverse

/-- Characters removed by `.replace(" ", "").replace("\t", "")`. -/
def isSpaceOrTab (c : Char) : Bool :=
  c = ' ' || c = '\t'

/-- `"".join(seq_lines).replace(" ", "").replace("\t", "")` applied to one line. -/
def removeSpaceTab (l : List Char) : List Char :=
  l.filter (fun c => !(isSpaceOrTab c))

/-- Split a text into logical lines at `'\n'`, the way iterating over a
Python file object followed by `rstrip("\n")` produces them (a trailing
newline yields a final empty line, which the parser skips anyway). -/
def splitLines : List Char → List (List Char)
  | [] => [[]]
  | c :: rest =>
    if c = '\n' then [] :: splitLines rest
    else
      match splitLines rest with
      | [] => [[c]]
      | l :: ls => (c :: l) :: ls

/-! ### FastaCodec: `read_fasta` / `write_fasta` -/

/-- Flush one in-progress record: join the accumulated (already stripped)
sequence lines and delete every remaining space and tab. -/
def flushRecord (h : List Char) (acc : List (List Char)) : List Char × List Char :=
  (h, removeSpaceTab acc.flatten)

/-- The line loop of `read_fasta`: state is the current header (if a `>`
line was seen) and the accumulated sequence lines. -/
def parseLines :
    Option (List Char) → List (List Char) → List (List Char) →
      List (List Char × List Char)
  | hdr, acc, [] =>
    match hdr with
    | none => []
    | some h => [flushRecord h acc]
  | hdr, acc, line :: rest =>
    if line = [] then parseLines hdr acc rest
    else if line.head? = some '>' then
      (match hdr with
       | none => []
       | some h => [flushRecord h acc]) ++
        parseLines (some (pyStrip (line.drop 1))) [] rest
    else parseLines hdr (acc ++ [pyStrip line]) rest

/-- `read_fasta`, starting from the file's text. -/
def read_fasta (text : List Char) : List (List Char × List Char) :=
  parseLines none [] (splitLines text)

/-- Fuelled wrapping of a sequence into pieces of `w` characters,
mirroring `for i in range(0, len(s), width): s[i:i+width]`.
`chunks` below supplies fuel `s.length`, enough whenever `1 ≤ w`. -/
def chunksF : Nat → Nat → List Char → List (List Char)
  | 0, _, _ => []
  | _ + 1, _, [] => []
  | fuel + 1, w, c :: rest => ((c :: rest).take w) :: chunksF fuel w ((c :: rest).drop w)

/-- The wrapped slices `s[i:i+width]` written by `write_fasta`. -/
def chunks (w : Nat) (s : List Char) : List (List Char) :=
  chunksF s.length w s

/-- The text `write_fasta` emits for one record. -/
def recordText (w : Nat) (p : List Char × List Char) : List Char :=
  '>' :: p.1 ++ '\n' :: ((chunks w p.2).map (fun c => c ++ ['\n'])).flatten

/-- `write_fasta`: serialize records, wrapping sequences at `w`. -/
def write_fasta (records : List (List Char × List Char)) (w : Nat) : List Char :=
  (records.map (recordText w)).flatten

/-! ### CompositionAnalyzer: `compute_base_distribution` -/

/-- The four-key mapping `{"A": _, "C": _, "G": _, "T": _}` (exactly the
keys the Python dict carries). -/
structure BaseProbs where
  A : ℚ
  C : ℚ
  G : ℚ
  T : ℚ
  deriving Repr, DecidableEq

/-- The `Counter` restricted to the four canonical bases. -/
structure BaseCounts where
  A : Nat
  C : Nat
  G : Nat
  T : Nat
  deriving Repr, DecidableEq

/-- `if base in ("A", "C", "G", "T"): counts[base] += 1`. -/
def bumpCount (k : BaseCounts) (c : Char) : BaseCounts :=
  if c = 'A' then { k with A := k.A + 1 }
  else if c = 'C' then { k with C := k.C + 1 }
  else if c = 'G' then { k with G := k.G + 1 }
  else if c = 'T' then { k with T := k.T + 1 }
  else k

/-- `compute_base_distribution`: count A/C/G/T over the upper-cased
sequences; divide by the total, or return the uniform distribution when
no canonical base occurs. -/
def compute_base_distribution (seqs : List (List Char)) : BaseProbs :=
  let k := seqs.foldl (fun acc s => (s.map Char.toUpper).foldl bumpCount acc)
    ⟨0, 0, 0, 0⟩
  let total : Nat := k.A + k.C + k.G + k.T
  if total = 0 then ⟨1/4, 1/4, 1/4, 1/4⟩
  else ⟨(k.A : ℚ) / total, (k.C : ℚ) / total, (k.G : ℚ) / total, (k.T : ℚ) / total⟩

/-! ### AmbiguityResolver -/

/-- The `AMBIGUOUS_NUCLEOTIDES` dict, as an association list in the
source's insertion order. -/
def AMBIGUOUS_NUCLEOTIDES : List (Char × List Char) :=
  [('R', ['A', 'G']),
   ('Y', ['C', 'T']),
   ('S', ['G', 'C']),
   ('W', ['A', 'T']),
   ('K', ['G', 'T']),
   ('M', ['A', 'C']),
   ('B', ['C', 'G', 'T']),
   ('D', ['A', 'G', 'T']),
   ('H', ['A', 'C', 'T']),
   ('V', ['A', 'C', 'G'])]

/-- Dict lookup `AMBIGUOUS_NUCLEOTIDES[c]` / membership test `c in ...`. -/
def ambLookup (c : Char) : Option (List Char) :=
  (AMBIGUOUS_NUCLEOTIDES.find? (fun p => p.1 = c)).map (fun p => p.2)

/-- `base_probs[b]` for the four canonical keys (the dict built by
`compute_base_distribution` has exactly those keys). -/
def probGet (bp : BaseProbs) (c : Char) : ℚ :=
  if c = 'A' then bp.A
  else if c = 'C' then bp.C
  else if c = 'G' then bp.G
  else if c = 'T' then bp.T
  else 0

/-- `_weights_for_symbol`: the symbol's candidate bases paired with the
distribution restricted to them and renormalized, or uniform weights when
the restricted weights sum to zero.  (In the source the symbol is always a
key of the table; `[]` stands in for the impossible `KeyError` case.) -/
def weights_for_symbol (symbol : Char) (bp : BaseProbs) : List Char × List ℚ :=
  let possible := (ambLookup symbol).getD []
  let weights := possible.map (probGet bp)
  let s := weights.sum
  if s = 0 then (possible, possible.map (fun _ => (1 : ℚ) / possible.length))
  else (possible, weights.map (fun w => w / s))

/-- Running totals, as `itertools.accumulate` builds them inside
`random.choices`. -/
def cumFrom (acc : ℚ) : List ℚ → List ℚ
  | [] => []
  | w :: ws => (acc + w) :: cumFrom (acc + w) ws

/-- `random.choices(population, weights, k=1)[0]` with the uniform draw
`u = random.random()` made explicit: `bisect_right` of `u * total` into the
cumulative weights, capped at `len - 1` exactly as the library does. -/
def random_choices (population : List Char) (weights : List ℚ) (u : ℚ) : Char :=
  let cw := cumFrom 0 weights
  let total := cw.getLastD 0
  let idx := cw.dropLast.countP (fun c => decide (c ≤ u * total))
  population.getD idx 'A'

/-- `resolve_ambiguous_sequence`: replace each IUPAC ambiguity symbol by a
base drawn among its candidates, preserving case; `us` is the stream of
`random.random()` draws, one consumed per ambiguous character. -/
def resolve_ambiguous_sequence : List Char → BaseProbs → List ℚ → List Char
  | [], _, _ => []
  | ch :: rest, bp, us =>
    match ambLookup ch.toUpper with
    | some _ =>
      let pw := weights_for_symbol ch.toUpper bp
      let chosen := random_choices pw.1 pw.2 (us.headD 0)
      (if ch.isUpper then chosen else chosen.toLower) ::
        resolve_ambiguous_sequence rest bp us.tail
    | none => ch :: resolve_ambiguous_sequence rest bp us

/-! ### LengthSampler: `random_cut_length` -/

/-- `random.randint(a, b)` with the draw `r` explicit: any `r` selects one
value of the inclusive range `[a, b]`. -/
def randint (a b r : Nat) : Nat :=
  a + r % (b - a + 1)

/-- `random_cut_length`: no cut when `orig_len ≤ K`; otherwise draw from
`[max(1, K - H), min(K, orig_len)]`, clamping the lower bound down to the
upper one when the bounds are inconsistent.  (Python's `max(1, K - H)` on
ints coincides with the truncated-subtraction form used here.) -/
def random_cut_length (orig_len K H r : Nat) : Nat :=
  if orig_len ≤ K then orig_len
  else
    let min_len := max 1 (K - H)
    let max_len := min K orig_len
    let min_len := if min_len > max_len then max_len else min_len
    randint min_len max_len r

/-! ### DeduplicationEngine -/

/-- The `OrderedDict` loop of `make_unique_records`: keys are sequences,
values headers, insertion order preserved, first write wins. -/
def uniqueAux (acc : List (List Char × List Char)) :
    List (List Char × List Char) → List (List Char × List Char)
  | [] => acc
  | (h, s) :: rest =>
    if acc.any (fun p => p.1 = s) then uniqueAux acc rest
    else uniqueAux (acc ++ [(s, h)]) rest

/-- `make_unique_records`: drop records whose sequence was already seen,
keeping the first header. -/
def make_unique_records (records : List (List Char × List Char)) :
    List (List Char × List Char) :=
  (uniqueAux [] records).map (fun p => (p.2, p.1))

/-- `collections.Counter` as an insertion-ordered association list. -/
def counterAdd (acc : List (List Char × Nat)) (s : List Char) :
    List (List Char × Nat) :=
  if acc.any (fun p => p.1 = s) then
    acc.map (fun p => if p.1 = s then (p.1, p.2 + 1) else p)
  else acc ++ [(s, 1)]

/-- `Counter(seqs)`. -/
def pyCounter (l : List (List Char)) : List (List Char × Nat) :=
  l.foldl counterAdd []

/-- `find_duplicate_sequences`: sequences occurring more than once, with
their counts. -/
def find_duplicate_sequences (records : List (List Char × List Char)) :
    List (List Char × Nat) :=
  (pyCounter (records.map (fun p => p.2))).filter (fun p => 1 < p.2)

/-! ### FastaDataset indexing (`fasta_dataset.py`) -/

/-- Value of a digit string, as `int()` computes it. -/
def digitsVal (l : List Char) : Nat :=
  l.foldl (fun a c => a * 10 + (c.toNat - 48)) 0

/-- `re.search(re.escape(prefix) + r"(\d+)", filename)`: scan left to
right for the first position where the prefix occurs immediately followed
by a digit; capture the maximal digit run after it. -/
def findNum (pfx : List Char) : List Char → Option Nat
  | [] => none
  | c :: rest =>
    if pfx.isPrefixOf (c :: rest) &&
        (((c :: rest).drop pfx.length).headD ' ').isDigit then
      some (digitsVal (((c :: rest).drop pfx.length).takeWhile Char.isDigit))
    else findNum pfx rest

/-- `FastaDataset.__extract_number`: the captured number, or `-1` when the
regex does not match. -/
def extract_number (pfx filename : List Char) : Int :=
  match findNum pfx filename with
  | some n => (n : Int)
  | none => -1

/-- `".fasta"`. -/
def fastaExt : List Char := ['.', 'f', 'a', 's', 't', 'a']

/-- `FastaDataset.__init__`'s file list: keep the names that start with
the prefix and end in `.fasta`, then sort by the extracted number
(`list.sort` is a stable sort; `mergeSort` models it). -/
def fastaDatasetFiles (files : List (List Char)) (pfx : List Char) :
    List (List Char) :=
  (files.filter (fun f => pfx.isPrefixOf f && fastaExt.isSuffixOf f)).mergeSort
    (fun a b => decide (extract_number pfx a ≤ extract_number pfx b))

/-! ### Specification-side definitions

These do not come from the source; they restate, in direct form, what the
spec's sentences say the code computes, so that the claims can compare the
two. -/

/-- Number of characters of `s` whose upper-cased form is the base `b`
(the spec's per-base occurrence count for one sequence). -/
def countBaseIn (s : List Char) (b : Char) : Nat :=
  s.countP (fun c => decide (c.toUpper = b))

/-- Per-base occurrence count over a whole collection. -/
def countBase (seqs : List (List Char)) (b : Char) : Nat :=
  (seqs.map (fun s => countBaseIn s b)).sum

/-- Total count of canonical bases over a collection. -/
def totalBases (seqs : List (List Char)) : Nat :=
  countBase seqs 'A' + countBase seqs 'C' + countBase seqs 'G' + countBase seqs 'T'

/-- The spec's description of deduplication: keep the first record for
each distinct sequence, in order of first occurrence. -/
def firstOccur : List (List Char × List Char) → List (List Char × List Char)
  | [] => []
  | (h, s) :: rest =>
    (h, s) :: firstOccur (rest.filter (fun p => !(p.2 = s : Bool)))
  termination_by l => l.length
  decreasing_by simp only [List.length_cons]
                exact Nat.lt_succ_of_le (List.length_filter_le _ _)

/-- First occurrences of the elements of a plain list (the key order of
`Counter`/`OrderedDict`). -/
def firstKeys : List (List Char) → List (List Char)
  | [] => []
  | a :: rest => a :: firstKeys (rest.filter (fun b => !(b = a : Bool)))
  termination_by l => l.length
  decreasing_by simp only [List.length_cons]
                exact Nat.lt_succ_of_le (List.length_filter_le _ _)

/-- The claim's "prefix + trailing-number + `.fasta`" file-name pattern. -/
def matchesNumberedPattern (pfx f : List Char) : Prop :=
  ∃ mid, f = pfx ++ mid ++ fastaExt ∧ mid ≠ [] ∧ ∀ c ∈ mid, c.isDigit = true

/-- Uppercase canonical bases. -/
def upperBases : List Char := ['A', 'C', 'G', 'T']

/-- Lowercase canonical bases. -/
def lowerBases : List Char := ['a', 'c', 'g', 't']

/-- A header that survives the parser's `strip` untouched and cannot be
broken across lines. -/
def goodHeader (h : List Char) : Prop :=
  pyStrip h = h ∧ '\n' ∉ h

/-- A sequence with no whitespace at all and no delimiter character. -/
def goodSeq (s : List Char) : Prop :=
  (∀ c ∈ s, pyIsSpace c = false) ∧ '>' ∉ s

/-! ### LengthSampler: claim C2 -/

theorem randint_ge (a b r : Nat) : a ≤ randint a b r :=
  Nat.le_add_right a _

theorem randint_le (a b r : Nat) (h : a ≤ b) : randint a b r ≤ b := by
  unfold randint
  have hm : r % (b - a + 1) < b - a + 1 := Nat.mod_lt _ (by omega)
  omega

theorem random_cut_length_eq (orig K H r : Nat) (h : ¬ orig ≤ K) :
    random_cut_length orig K H r =
      randint (if max 1 (K - H) > min K orig then min K orig else max 1 (K - H))
        (min K orig) r := by
  unfold random_cut_length
  rw [if_neg h]

/-- C2 (amended): `random_cut_length` returns `orig_len` whenever
`orig_len ≤ K`; its result is always `≤ K` and `≤ orig_len`; it is `≥ 1`
whenever both `orig_len ≥ 1` and `K ≥ 1`; and when the derived bounds are
inconsistent it clamps, returning `min K orig_len`, instead of raising. -/
theorem random_cut_length_spec (orig K H r : Nat) :
    (orig ≤ K → random_cut_length orig K H r = orig) ∧
    random_cut_length orig K H r ≤ K ∧
    random_cut_length orig K H r ≤ orig ∧
    (1 ≤ orig → 1 ≤ K → 1 ≤ random_cut_length orig K H r) ∧
    (min K orig < max 1 (K - H) → random_cut_length orig K H r = min K orig) := by
  by_cases h1 : orig ≤ K
  · have hres : random_cut_length orig K H r = orig := by
      unfold random_cut_length
      rw [if_pos h1]
    rw [hres]
    exact ⟨fun _ => rfl, h1, Nat.le_refl _, fun h _ => h,
      fun _ => (Nat.min_eq_right h1).symm⟩
  · have h1' : K < orig := Nat.not_le.mp h1
    have hmin : min K orig = K := Nat.min_eq_left (Nat.le_of_lt h1')
    rw [random_cut_length_eq orig K H r h1]
    by_cases h2 : max 1 (K - H) > min K orig
    · rw [if_pos h2]
      have hres : randint (min K orig) (min K orig) r = min K orig := by
        unfold randint
        simp [Nat.mod_one]
      rw [hres, hmin]
      exact ⟨fun hc => absurd hc h1, Nat.le_refl _, Nat.le_of_lt h1',
        fun _ hK => hK, fun _ => rfl⟩
    · rw [if_neg h2]
      have hle : max 1 (K - H) ≤ min K orig := Nat.not_lt.mp h2
      have hub := randint_le (max 1 (K - H)) (min K orig) r hle
      have hlb := randint_ge (max 1 (K - H)) (min K orig) r
      refine ⟨fun hc => absurd hc h1, ?_, ?_, ?_, fun hc => absurd hc h2⟩
      · omega
      · omega
      · intro _ _
        have : 1 ≤ max 1 (K - H) := Nat.le_max_left 1 _
        omega

/-- C2's original guarantee fails: with `orig_len = 5`, `K = 0`, `H = 0`
the function returns `0`, which is not in `[1, 5]`. -/
theorem random_cut_length_counterexample :
    random_cut_length 5 0 0 0 = 0 ∧ ¬ (1 ≤ random_cut_length 5 0 0 0) := by
  decide

/-- Witness for `random_cut_length_spec` at concrete inputs. -/
theorem random_cut_length_spec_witness :
    random_cut_length 50 100 10 3 = 50 ∧ 1 ≤ random_cut_length 200 100 10 7 :=
  ⟨(random_cut_length_spec 50 100 10 3).1 (by decide),
   (random_cut_length_spec 200 100 10 7).2.2.2.1 (by decide) (by decide)⟩

/-! ### CompositionAnalyzer: claim C3 -/

theorem foldl_bumpCount (s : List Char) : ∀ k : BaseCounts,
    s.foldl bumpCount k =
      ⟨k.A + s.countP (fun c => decide (c = 'A')),
       k.C + s.countP (fun c => decide (c = 'C')),
       k.G + s.countP (fun c => decide (c = 'G')),
       k.T + s.countP (fun c => decide (c = 'T'))⟩ := by
  induction s with
  | nil => intro k; cases k; simp
  | cons c t ih =>
    intro k
    rw [List.foldl_cons, ih, List.countP_cons, List.countP_cons, List.countP_cons,
      List.countP_cons]
    unfold bumpCount
    split_ifs with h1 h2 h3 h4 <;> simp_all [BaseCounts.mk.injEq] <;> omega

theorem compute_counts (seqs : List (List Char)) : ∀ k : BaseCounts,
    seqs.foldl (fun acc s => (s.map Char.toUpper).foldl bumpCount acc) k =
      ⟨k.A + countBase seqs 'A', k.C + countBase seqs 'C',
       k.G + countBase seqs 'G', k.T + countBase seqs 'T'⟩ := by
  induction seqs with
  | nil => intro k; cases k; simp [countBase]
  | cons s t ih =>
    intro k
    rw [List.foldl_cons, foldl_bumpCount, ih]
    simp only [countBase, countBaseIn, List.map_cons, List.sum_cons, List.countP_map,
      BaseCounts.mk.injEq, Function.comp_def]
    omega

/-- C3: `compute_base_distribution` returns each base's case-insensitive
count divided by the total canonical-base count, the uniform distribution
`{A: 1/4, C: 1/4, G: 1/4, T: 1/4}` when that total is zero, and in
particular `["AACGT"]` yields exactly `{A: 2/5, C: 1/5, G: 1/5, T: 1/5}`
(that is, `{0.4, 0.2, 0.2, 0.2}`). -/
theorem compute_base_distribution_spec :
    (∀ seqs, compute_base_distribution seqs =
      if totalBases seqs = 0 then ⟨1/4, 1/4, 1/4, 1/4⟩
      else
        ⟨(countBase seqs 'A' : ℚ) / (totalBases seqs : ℚ),
         (countBase seqs 'C' : ℚ) / (totalBases seqs : ℚ),
         (countBase seqs 'G' : ℚ) / (totalBases seqs : ℚ),
         (countBase seqs 'T' : ℚ) / (totalBases seqs : ℚ)⟩) ∧
    compute_base_distribution [['A', 'A', 'C', 'G', 'T']] = ⟨2/5, 1/5, 1/5, 1/5⟩ := by
  have hgen : ∀ seqs, compute_base_distribution seqs =
      if totalBases seqs = 0 then ⟨1/4, 1/4, 1/4, 1/4⟩
      else
        ⟨(countBase seqs 'A' : ℚ) / (totalBases seqs : ℚ),
         (countBase seqs 'C' : ℚ) / (totalBases seqs : ℚ),
         (countBase seqs 'G' : ℚ) / (totalBases seqs : ℚ),
         (countBase seqs 'T' : ℚ) / (totalBases seqs : ℚ)⟩ := by
    intro seqs
    unfold compute_base_distribution
    rw [compute_counts]
    simp only [Nat.zero_add, totalBases]
  refine ⟨hgen, ?_⟩
  rw [hgen, if_neg (by decide)]
  have hA : countBase [['A', 'A', 'C', 'G', 'T']] 'A' = 2 := by decide
  have hC : countBase [['A', 'A', 'C', 'G', 'T']] 'C' = 1 := by decide
  have hG : countBase [['A', 'A', 'C', 'G', 'T']] 'G' = 1 := by decide
  have hT : countBase [['A', 'A', 'C', 'G', 'T']] 'T' = 1 := by decide
  have htot : totalBases [['A', 'A', 'C', 'G', 'T']] = 5 := by decide
  rw [hA, hC, hG, hT, htot]
  norm_num

/-! ### DeduplicationEngine: claims C6, C7, C10 -/

theorem firstOccur_nil : firstOccur [] = [] := by
  simp only [firstOccur]

theorem firstOccur_cons (h s : List Char) (rest : List (List Char × List Char)) :
    firstOccur ((h, s) :: rest) =
      (h, s) :: firstOccur (rest.filter (fun p => !(p.2 = s : Bool))) := by
  simp only [firstOccur]

theorem firstKeys_nil : firstKeys [] = [] := by
  simp only [firstKeys]

theorem firstKeys_cons (a : List Char) (rest : List (List Char)) :
    firstKeys (a :: rest) = a :: firstKeys (rest.filter (fun b => !(b = a : Bool))) := by
  simp only [firstKeys]

theorem uniqueAux_eq (l : List (List Char × List Char)) : ∀ acc,
    uniqueAux acc l =
      acc ++ (firstOccur (l.filter (fun p => !(acc.any (fun q => q.1 = p.2))))).map
        (fun p => (p.2, p.1)) := by
  induction l with
  | nil =>
    intro acc
    simp [uniqueAux, firstOccur_nil]
  | cons hd tl ih =>
    intro acc
    obtain ⟨h, s⟩ := hd
    by_cases hmem : acc.any (fun q => decide (q.1 = s)) = true
    · have hlhs : uniqueAux acc ((h, s) :: tl) = uniqueAux acc tl := by
        simp only [uniqueAux]
        rw [if_pos hmem]
      rw [hlhs, ih, List.filter_cons]
      simp [hmem]
    · have hlhs : uniqueAux acc ((h, s) :: tl) = uniqueAux (acc ++ [(s, h)]) tl := by
        simp only [uniqueAux]
        rw [if_neg hmem]
      have hcond : (acc.any fun q => decide (q.1 = s)) = false := by
        revert hmem
        cases acc.any fun q => decide (q.1 = s) <;> simp
      have hpred : ∀ p : List Char × List Char,
          (!((acc ++ [(s, h)]).any (fun q => q.1 = p.2)) : Bool) =
            ((!(p.2 = s : Bool)) && !(acc.any (fun q => q.1 = p.2))) := by
        intro p
        rw [List.any_append]
        simp only [List.any_cons, List.any_nil, Bool.or_false]
        rw [show (decide (s = p.2)) = (decide (p.2 = s)) from decide_eq_decide.mpr eq_comm]
        rw [Bool.not_or, Bool.and_comm]
      rw [hlhs, ih]
      rw [List.filter_congr (fun p _ => hpred p), ← List.filter_filter]
      simp only [List.filter_cons, hcond, Bool.not_false, if_true]
      rw [firstOccur_cons]
      simp [List.append_assoc]


theorem make_unique_eq_firstOccur (l : List (List Char × List Char)) :
    make_unique_records l = firstOccur l := by
  unfold make_unique_records
  rw [uniqueAux_eq]
  simp [List.map_map, Function.comp_def]

theorem firstOccur_sublist :
    ∀ l : List (List Char × List Char), (firstOccur l).Sublist l
  | [] => by rw [firstOccur_nil]
  | (h, s) :: rest => by
    rw [firstOccur_cons]
    exact ((firstOccur_sublist _).trans (List.filter_sublist _)).cons₂ _
  termination_by l => l.length
  decreasing_by simp only [List.length_cons]
                exact Nat.lt_succ_of_le (List.length_filter_le _ _)

theorem firstKeys_sublist : ∀ l : List (List Char), (firstKeys l).Sublist l
  | [] => by rw [firstKeys_nil]
  | a :: rest => by
    rw [firstKeys_cons]
    exact ((firstKeys_sublist _).trans (List.filter_sublist _)).cons₂ _
  termination_by l => l.length
  decreasing_by simp only [List.length_cons]
                exact Nat.lt_succ_of_le (List.length_filter_le _ _)

theorem mem_firstKeys : ∀ (l : List (List Char)) (a), a ∈ firstKeys l ↔ a ∈ l
  | [], a => by rw [firstKeys_nil]
  | b :: rest, a => by
    rw [firstKeys_cons]
    by_cases hab : a = b
    · simp [hab]
    · simp only [List.mem_cons, hab, false_or]
      rw [mem_firstKeys (rest.filter _) a, List.mem_filter]
      simp [hab]
  termination_by l => l.length
  decreasing_by simp only [List.length_cons]
                exact Nat.lt_succ_of_le (List.length_filter_le _ _)

theorem firstKeys_nodup : ∀ l : List (List Char), (firstKeys l).Nodup
  | [] => by rw [firstKeys_nil]; exact List.nodup_nil
  | b :: rest => by
    rw [firstKeys_cons]
    refine List.nodup_cons.mpr ⟨fun hmem => ?_, firstKeys_nodup _⟩
    have hb := (mem_firstKeys _ _).mp hmem
    have := (List.mem_filter.mp hb).2
    simp at this
  termination_by l => l.length
  decreasing_by simp only [List.length_cons]
                exact Nat.lt_succ_of_le (List.length_filter_le _ _)

theorem map_snd_filter (p : List Char → Bool) (l : List (List Char × List Char)) :
    (l.filter (fun q => p q.2)).map (fun q => q.2) =
      (l.map (fun q => q.2)).filter p := by
  induction l with
  | nil => rfl
  | cons q tl ih =>
    by_cases hq : p q.2 = true <;>
      simp [List.filter_cons, hq, ih]

theorem firstOccur_map_snd :
    ∀ l : List (List Char × List Char),
      (firstOccur l).map (fun p => p.2) = firstKeys (l.map (fun p => p.2))
  | [] => by rw [firstOccur_nil]; simp [firstKeys_nil]
  | (h, s) :: rest => by
    rw [firstOccur_cons, List.map_cons, List.map_cons, firstKeys_cons]
    congr 1
    rw [firstOccur_map_snd (rest.filter _)]
    congr 1
    exact map_snd_filter (fun x => !(x = s : Bool)) rest
  termination_by l => l.length
  decreasing_by simp only [List.length_cons]
                exact Nat.lt_succ_of_le (List.length_filter_le _ _)

theorem firstOccur_idem :
    ∀ l : List (List Char × List Char), firstOccur (firstOccur l) = firstOccur l
  | [] => by rw [firstOccur_nil, firstOccur_nil]
  | (h, s) :: rest => by
    rw [firstOccur_cons, firstOccur_cons]
    congr 1
    have hall : ∀ p ∈ firstOccur (rest.filter (fun p => !(p.2 = s : Bool))),
        (!(p.2 = s : Bool)) = true := by
      intro p hp
      exact (List.mem_filter.mp ((firstOccur_sublist _).mem hp)).2
    rw [List.filter_eq_self.mpr hall]
    exact firstOccur_idem (rest.filter _)
  termination_by l => l.length
  decreasing_by simp only [List.length_cons]
                exact Nat.lt_succ_of_le (List.length_filter_le _ _)

/-- C6: `make_unique_records` keeps, for each distinct sequence, exactly
the first record in which it occurs (with that record's header), in order
of first occurrence — i.e. it coincides with the direct first-occurrence
filter `firstOccur`; in particular
`[("h1","AAA"), ("h2","CCC"), ("h3","AAA")]` yields
`[("h1","AAA"), ("h2","CCC")]`. -/
theorem make_unique_records_spec :
    (∀ l, make_unique_records l = firstOccur l) ∧
    make_unique_records
        [(['h', '1'], ['A', 'A', 'A']), (['h', '2'], ['C', 'C', 'C']),
         (['h', '3'], ['A', 'A', 'A'])] =
      [(['h', '1'], ['A', 'A', 'A']), (['h', '2'], ['C', 'C', 'C'])] :=
  ⟨make_unique_eq_firstOccur, by decide⟩

/-- C7: deduplication is idempotent:
`make_unique_records (make_unique_records r) = make_unique_records r`. -/
theorem make_unique_records_idem (l : List (List Char × List Char)) :
    make_unique_records (make_unique_records l) = make_unique_records l := by
  rw [make_unique_eq_firstOccur, make_unique_eq_firstOccur, firstOccur_idem]

theorem firstKeys_append_single (a : List Char) : ∀ l : List (List Char),
    firstKeys (l ++ [a]) = if a ∈ l then firstKeys l else firstKeys l ++ [a]
  | [] => by simp [firstKeys_nil, firstKeys_cons]
  | b :: rest => by
    rw [List.cons_append, firstKeys_cons, firstKeys_cons, List.filter_append]
    by_cases hab : a = b
    · have h1 : List.filter (fun x => !(x = b : Bool)) [a] = [] := by
        simp [hab]
      rw [h1, List.append_nil, if_pos (by simp [hab])]
    · have h1 : List.filter (fun x => !(x = b : Bool)) [a] = [a] := by
        simp [hab]
      rw [h1, firstKeys_append_single a (rest.filter _)]
      have hmemf : a ∈ rest.filter (fun x => !(x = b : Bool)) ↔ a ∈ rest := by
        rw [List.mem_filter]
        simp [hab]
      by_cases har : a ∈ rest
      · rw [if_pos (hmemf.mpr har), if_pos (by simp [har])]
      · rw [if_neg (fun hc => har (hmemf.mp hc)),
          if_neg (by simp [har, hab]), List.cons_append]
  termination_by l => l.length
  decreasing_by simp only [List.length_cons]
                exact Nat.lt_succ_of_le (List.length_filter_le _ _)

theorem any_map_eq {α β : Type} (f : α → β) (p : β → Bool) :
    ∀ l : List α, (l.map f).any p = l.any (fun x => p (f x))
  | [] => rfl
  | a :: tl => by
    rw [List.map_cons, List.any_cons, List.any_cons, any_map_eq f p tl]

theorem pyCounter_eq : ∀ l : List (List Char),
    pyCounter l = (firstKeys l).map (fun s => (s, l.count s)) := by
  intro l
  induction l using List.reverseRecOn with
  | nil => simp [pyCounter, firstKeys_nil]
  | append_singleton l a ih =>
    have hstep : pyCounter (l ++ [a]) = counterAdd (pyCounter l) a := by
      unfold pyCounter
      rw [List.foldl_append, List.foldl_cons, List.foldl_nil]
    rw [hstep, ih]
    unfold counterAdd
    rw [firstKeys_append_single]
    have hany : ((firstKeys l).map (fun s => (s, l.count s))).any
        (fun p => p.1 = a) = decide (a ∈ l) := by
      rw [any_map_eq]
      rcases Bool.eq_false_or_eq_true (decide (a ∈ l)) with hd | hd
      · rw [hd]
        have hma : a ∈ l := of_decide_eq_true hd
        apply List.any_eq_true.mpr
        exact ⟨a, (mem_firstKeys l a).mpr hma, by simp⟩
      · rw [hd]
        have hna : a ∉ l := of_decide_eq_false hd
        apply List.any_eq_false.mpr
        intro s hs
        have : s ∈ l := (mem_firstKeys l s).mp hs
        simp only [decide_eq_true_eq]
        exact fun hc => hna (hc ▸ this)
    rw [hany]
    by_cases ha : a ∈ l
    · rw [if_pos (by simp [ha]), if_pos ha, List.map_map]
      apply List.map_congr_left
      intro s _
      simp only [Function.comp_apply]
      by_cases hsa : s = a
      · rw [if_pos (by simp [hsa]), hsa]
        simp [List.count_append]
      · rw [if_neg (by simp [hsa])]
        have : [a].count s = 0 := by
          rw [List.count_eq_zero]
          simp [hsa]
        simp [List.count_append, this]
    · rw [if_neg (by simp [ha]), if_neg ha, List.map_append]
      congr 1
      · apply List.map_congr_left
        intro s hs
        have hsl : s ∈ l := (mem_firstKeys l s).mp hs
        have hsa : s ≠ a := fun hc => ha (hc ▸ hsl)
        have : [a].count s = 0 := by
          rw [List.count_eq_zero]
          simp [hsa]
        simp [List.count_append, this]
      · have h0 : l.count a = 0 := List.count_eq_zero.mpr ha
        simp [List.count_append, h0]

theorem mem_pyCounter (l : List (List Char)) (s : List Char) (n : Nat) :
    (s, n) ∈ pyCounter l ↔ s ∈ l ∧ n = l.count s := by
  rw [pyCounter_eq, List.mem_map]
  constructor
  · rintro ⟨t, ht, hts⟩
    rw [Prod.mk.injEq] at hts
    obtain ⟨rfl, rfl⟩ := hts
    exact ⟨(mem_firstKeys l t).mp ht, rfl⟩
  · rintro ⟨hmem, hn⟩
    exact ⟨s, (mem_firstKeys l s).mpr hmem, by rw [hn]⟩

theorem nodup_count_le_one {l : List (List Char)} (hn : l.Nodup) (a : List Char) :
    l.count a ≤ 1 := by
  induction l with
  | nil => simp
  | cons b tl ih =>
    obtain ⟨hb, htl⟩ := List.nodup_cons.mp hn
    rw [List.count_cons]
    by_cases hab : a = b
    · subst hab
      have h0 : tl.count a = 0 := List.count_eq_zero.mpr hb
      simp [h0]
    · simp only [beq_iff_eq]
      rw [if_neg (fun hc => hab hc.symm)]
      simpa using ih htl

/-- C10: `find_duplicate_sequences` applied to a deduplicated collection
is empty, and in general its entries are exactly the sequences occurring
at least twice in the input, each with its exact occurrence count. -/
theorem find_duplicate_sequences_spec (r : List (List Char × List Char)) :
    find_duplicate_sequences (make_unique_records r) = [] ∧
    (∀ s n, (s, n) ∈ find_duplicate_sequences r ↔
      s ∈ r.map (fun p => p.2) ∧ n = (r.map (fun p => p.2)).count s ∧ 2 ≤ n) := by
  constructor
  · have hnodup : ((make_unique_records r).map (fun p => p.2)).Nodup := by
      rw [make_unique_eq_firstOccur, firstOccur_map_snd]
      exact firstKeys_nodup _
    unfold find_duplicate_sequences
    apply List.filter_eq_nil_iff.mpr
    rintro ⟨s, n⟩ hp
    obtain ⟨hmem, hcount⟩ := (mem_pyCounter _ s n).mp hp
    have hle : ((make_unique_records r).map (fun p => p.2)).count s ≤ 1 :=
      nodup_count_le_one hnodup s
    simp only [decide_eq_true_eq]
    omega
  · intro s n
    unfold find_duplicate_sequences
    rw [List.mem_filter, mem_pyCounter]
    simp only [decide_eq_true_eq]
    constructor
    · rintro ⟨⟨hm, hc⟩, hlt⟩
      exact ⟨hm, hc, hlt⟩
    · rintro ⟨hm, hc, hge⟩
      exact ⟨⟨hm, hc⟩, by omega⟩

/-! ### AmbiguityResolver: claims C4, C5, C9 -/

theorem ambLookup_poss {c : Char} {poss : List Char} (h : ambLookup c = some poss) :
    poss ≠ [] ∧ ∀ x ∈ poss, x ∈ upperBases := by
  unfold ambLookup at h
  rcases hf : AMBIGUOUS_NUCLEOTIDES.find? (fun p => p.1 = c) with _ | q
  · rw [hf] at h
    exact Option.noConfusion h
  · rw [hf, Option.map_some'] at h
    have h2 : q.2 = poss := Option.some.inj h
    have hq := List.mem_of_find?_eq_some hf
    have hall : ∀ p ∈ AMBIGUOUS_NUCLEOTIDES, p.2 ≠ [] ∧ ∀ x ∈ p.2, x ∈ upperBases := by
      decide
    exact h2 ▸ hall q hq

theorem weights_for_symbol_fst (symbol : Char) (bp : BaseProbs) :
    (weights_for_symbol symbol bp).1 = (ambLookup symbol).getD [] := by
  by_cases hs : ((((ambLookup symbol).getD []).map (probGet bp)).sum = 0) <;>
    simp [weights_for_symbol, hs]

theorem getD_mem_or (l : List Char) (i : Nat) (d : Char) :
    l.getD i d ∈ l ∨ l.getD i d = d := by
  induction l generalizing i with
  | nil => right; rfl
  | cons a tl ih =>
    cases i with
    | zero => left; simp
    | succ j =>
      rw [List.getD_cons_succ]
      rcases ih j with hm | hd
      · exact Or.inl (List.mem_cons_of_mem _ hm)
      · exact Or.inr hd

theorem toLower_mem_lower {c : Char} (h : c ∈ upperBases) : c.toLower ∈ lowerBases := by
  fin_cases h <;> decide

theorem random_choices_mem_upper {poss : List Char} {ws : List ℚ} {u : ℚ}
    (hposs : ∀ x ∈ poss, x ∈ upperBases) :
    random_choices poss ws u ∈ upperBases := by
  unfold random_choices
  rcases getD_mem_or poss _ 'A' with hm | hd
  · exact hposs _ hm
  · rw [hd]
    decide

theorem resolve_forall (bp : BaseProbs) :
    ∀ (seq : List Char) (us : List ℚ),
      List.Forall₂
        (fun a b =>
          (ambLookup a.toUpper = none ∧ b = a) ∨
          (ambLookup a.toUpper ≠ none ∧
            ((a.isUpper = true ∧ b ∈ upperBases) ∨
             (a.isUpper = false ∧ b ∈ lowerBases))))
        seq (resolve_ambiguous_sequence seq bp us)
  | [], us => List.Forall₂.nil
  | ch :: rest, us => by
    rcases hamb : ambLookup ch.toUpper with _ | poss
    · have hres : resolve_ambiguous_sequence (ch :: rest) bp us =
          ch :: resolve_ambiguous_sequence rest bp us := by
        simp [resolve_ambiguous_sequence, hamb]
      rw [hres]
      exact List.Forall₂.cons (Or.inl ⟨hamb, rfl⟩) (resolve_forall bp rest us)
    · have hposs : (weights_for_symbol ch.toUpper bp).1 = poss := by
        rw [weights_for_symbol_fst, hamb]
        rfl
      have hres : resolve_ambiguous_sequence (ch :: rest) bp us =
          (if ch.isUpper then
              random_choices (weights_for_symbol ch.toUpper bp).1
                (weights_for_symbol ch.toUpper bp).2 (us.headD 0)
            else
              (random_choices (weights_for_symbol ch.toUpper bp).1
                (weights_for_symbol ch.toUpper bp).2 (us.headD 0)).toLower) ::
            resolve_ambiguous_sequence rest bp us.tail := by
        simp [resolve_ambiguous_sequence, hamb]
      rw [hres]
      have hup : random_choices (weights_for_symbol ch.toUpper bp).1
          (weights_for_symbol ch.toUpper bp).2 (us.headD 0) ∈ upperBases := by
        rw [hposs]
        exact random_choices_mem_upper (ambLookup_poss hamb).2
      refine List.Forall₂.cons ?_ (resolve_forall bp rest us.tail)
      rcases Bool.eq_false_or_eq_true ch.isUpper with hu | hu
      · rw [hu, if_pos rfl]
        exact Or.inr ⟨by rw [hamb]; exact fun hc => Option.noConfusion hc,
          Or.inl ⟨rfl, hup⟩⟩
      · rw [hu, if_neg (by simp)]
        exact Or.inr ⟨by rw [hamb]; exact fun hc => Option.noConfusion hc,
          Or.inr ⟨rfl, toLower_mem_lower hup⟩⟩

/-- C5: every character whose uppercase form is not an IUPAC ambiguity
symbol passes through `resolve_ambiguous_sequence` unchanged, and every
replacement preserves the case of the character it replaces (uppercase
symbol → uppercase base, lowercase symbol → lowercase base). -/
theorem resolve_ambiguous_sequence_passthrough
    (seq : List Char) (bp : BaseProbs) (us : List ℚ) :
    List.Forall₂
      (fun a b =>
        (ambLookup a.toUpper = none → b = a) ∧
        (ambLookup a.toUpper ≠ none →
          (a.isUpper = true → b ∈ upperBases) ∧
          (a.isUpper = false → b ∈ lowerBases)))
      seq (resolve_ambiguous_sequence seq bp us) := by
  refine List.Forall₂.imp ?_ (resolve_forall bp seq us)
  rintro a b (⟨h1, h2⟩ | ⟨h1, h2⟩)
  · exact ⟨fun _ => h2, fun hc => absurd h1 hc⟩
  · refine ⟨fun hc => absurd hc h1, fun _ => ?_⟩
    rcases h2 with ⟨hu, hb⟩ | ⟨hu, hb⟩
    · exact ⟨fun _ => hb, fun hc => absurd hc (by simp [hu])⟩
    · exact ⟨fun hc => absurd hc (by simp [hu]), fun _ => hb⟩

/-- Witness for `resolve_ambiguous_sequence_passthrough` at a concrete
input mixing an uppercase symbol, a lowercase symbol, a canonical base and
a gap character. -/
theorem resolve_ambiguous_sequence_passthrough_witness :
    List.Forall₂
      (fun a b =>
        (ambLookup a.toUpper = none → b = a) ∧
        (ambLookup a.toUpper ≠ none →
          (a.isUpper = true → b ∈ upperBases) ∧
          (a.isUpper = false → b ∈ lowerBases)))
      ['R', 'A', 'r', '-']
      (resolve_ambiguous_sequence ['R', 'A', 'r', '-'] ⟨1, 0, 0, 0⟩ [0, 0]) :=
  resolve_ambiguous_sequence_passthrough ['R', 'A', 'r', '-'] ⟨1, 0, 0, 0⟩ [0, 0]

/-- C9: the resolved sequence has the same length as the input, and each
output position holds either the original character or a canonical base
replacing an ambiguity symbol that stood at that position. -/
theorem resolve_ambiguous_sequence_shape
    (seq : List Char) (bp : BaseProbs) (us : List ℚ) :
    (resolve_ambiguous_sequence seq bp us).length = seq.length ∧
    List.Forall₂
      (fun a b => b = a ∨
        (ambLookup a.toUpper ≠ none ∧ (b ∈ upperBases ∨ b ∈ lowerBases)))
      seq (resolve_ambiguous_sequence seq bp us) := by
  constructor
  · exact ((resolve_forall bp seq us).length_eq).symm
  · refine List.Forall₂.imp ?_ (resolve_forall bp seq us)
    rintro a b (⟨h1, h2⟩ | ⟨h1, h2⟩)
    · exact Or.inl h2
    · refine Or.inr ⟨h1, ?_⟩
      rcases h2 with ⟨_, hb⟩ | ⟨_, hb⟩
      · exact Or.inl hb
      · exact Or.inr hb

theorem sum_map_div (l : List ℚ) (c : ℚ) :
    (l.map (fun x => x / c)).sum = l.sum / c := by
  induction l with
  | nil => simp
  | cons x tl ih => simp [ih, add_div]

/-- C4: for every ambiguity symbol, `_weights_for_symbol` pairs the
symbol's candidate bases with the supplied distribution restricted to
them and renormalized to sum to 1, falling back to uniform weights when
the restricted weights sum to zero; in particular, with distribution
`{A: 1, C: 0, G: 0, T: 0}` resolving `"R"` always yields `"A"` and
resolving `"r"` always yields `"a"`, for every random draw `u ∈ [0, 1)`. -/
theorem weights_for_symbol_spec :
    (∀ (bp : BaseProbs) (sym : Char) (poss : List Char), ambLookup sym = some poss →
      (weights_for_symbol sym bp).1 = poss ∧
      ((poss.map (probGet bp)).sum ≠ 0 →
        (weights_for_symbol sym bp).2 =
          poss.map (fun b => probGet bp b / (poss.map (probGet bp)).sum) ∧
        (weights_for_symbol sym bp).2.sum = 1) ∧
      ((poss.map (probGet bp)).sum = 0 →
        (weights_for_symbol sym bp).2 = poss.map (fun _ => (1 : ℚ) / poss.length) ∧
        (weights_for_symbol sym bp).2.sum = 1)) ∧
    (∀ u : ℚ, 0 ≤ u → u < 1 →
      resolve_ambiguous_sequence ['R'] ⟨1, 0, 0, 0⟩ [u] = ['A'] ∧
      resolve_ambiguous_sequence ['r'] ⟨1, 0, 0, 0⟩ [u] = ['a']) := by
  constructor
  · intro bp sym poss h
    have hposs : (ambLookup sym).getD [] = poss := by rw [h]; rfl
    refine ⟨by rw [weights_for_symbol_fst, hposs], ?_, ?_⟩
    · intro hs
      have hw2 : (weights_for_symbol sym bp).2 =
          (poss.map (probGet bp)).map (fun w => w / (poss.map (probGet bp)).sum) := by
        simp [weights_for_symbol, hposs, hs]
      constructor
      · rw [hw2, List.map_map]
        rfl
      · rw [hw2, sum_map_div, div_self hs]
    · intro hs
      have hw2 : (weights_for_symbol sym bp).2 =
          poss.map (fun _ => (1 : ℚ) / poss.length) := by
        simp [weights_for_symbol, hposs, hs]
      have hne : poss ≠ [] := (ambLookup_poss h).1
      have hlen : (poss.length : ℚ) ≠ 0 := by
        simpa using fun hc => hne (List.length_eq_zero.mp hc)
      refine ⟨hw2, ?_⟩
      rw [hw2, List.map_const', List.sum_replicate, nsmul_eq_mul, mul_one_div,
        div_self hlen]
  · intro u h0 h1
    have hamb : ambLookup 'R' = some ['A', 'G'] := by decide
    have hga : ('G' : Char) ≠ 'A' := by decide
    have hw : weights_for_symbol 'R' ⟨1, 0, 0, 0⟩ = (['A', 'G'], [1, 0]) := by
      rw [weights_for_symbol, hamb]
      norm_num [probGet, hga]
    have hnot : ¬((1 : ℚ) ≤ u) := not_le.mpr h1
    constructor
    · simp [resolve_ambiguous_sequence, hamb, hw, random_choices, cumFrom,
        List.countP_cons, hnot]
    · simp [resolve_ambiguous_sequence, hamb, hw, random_choices, cumFrom,
        List.countP_cons, hnot]

/-- Witness for `weights_for_symbol_spec` at a concrete symbol,
distribution and draw. -/
theorem weights_for_symbol_spec_witness :
    (weights_for_symbol 'R' ⟨1, 0, 0, 0⟩).1 = ['A', 'G'] ∧
    resolve_ambiguous_sequence ['R'] ⟨1, 0, 0, 0⟩ [1/2] = ['A'] :=
  ⟨(weights_for_symbol_spec.1 ⟨1, 0, 0, 0⟩ 'R' ['A', 'G'] (by decide)).1,
   (weights_for_symbol_spec.2 (1/2) (by norm_num) (by norm_num)).1⟩

/-! ### FastaDataset indexing: claim C8 -/

theorem extract_number_of_none {pfx f : List Char} (h : findNum pfx f = none) :
    extract_number pfx f = -1 := by
  unfold extract_number
  rw [h]

theorem extract_number_of_some {pfx f : List Char} {n : Nat}
    (h : findNum pfx f = some n) :
    extract_number pfx f = (n : Int) ∧ 0 ≤ extract_number pfx f := by
  unfold extract_number
  rw [h]
  exact ⟨rfl, Int.natCast_nonneg n⟩

theorem extract_number_ge (pfx f : List Char) : -1 ≤ extract_number pfx f := by
  unfold extract_number
  rcases findNum pfx f with _ | n
  · exact Int.le_refl (-1)
  · exact Int.le_trans (by decide) (Int.natCast_nonneg n)

/-- C8 (amended): the file list kept by `FastaDataset` is exactly the
directory entries whose name starts with the prefix and ends in `.fasta`
(a trailing number is not required), ordered by the first integer found
after the prefix; names from which no number can be extracted get key
`-1` and therefore sort before every numbered file. -/
theorem fastaDatasetFiles_spec (files : List (List Char)) (pfx : List Char) :
    (fastaDatasetFiles files pfx).Perm
      (files.filter (fun f => pfx.isPrefixOf f && fastaExt.isSuffixOf f)) ∧
    (∀ f, f ∈ fastaDatasetFiles files pfx ↔
      f ∈ files ∧ pfx.isPrefixOf f = true ∧ fastaExt.isSuffixOf f = true) ∧
    List.Pairwise (fun a b => extract_number pfx a ≤ extract_number pfx b)
      (fastaDatasetFiles files pfx) ∧
    (∀ f, findNum pfx f = none →
      ∀ g, extract_number pfx f ≤ extract_number pfx g) := by
  have hperm : (fastaDatasetFiles files pfx).Perm
      (files.filter (fun f => pfx.isPrefixOf f && fastaExt.isSuffixOf f)) :=
    List.mergeSort_perm _ _
  refine ⟨hperm, ?_, ?_, ?_⟩
  · intro f
    rw [hperm.mem_iff, List.mem_filter]
    simp [Bool.and_eq_true]
  · have hb : List.Pairwise
        (fun a b => decide (extract_number pfx a ≤ extract_number pfx b) = true)
        ((files.filter (fun f => pfx.isPrefixOf f && fastaExt.isSuffixOf f)).mergeSort
          (fun a b => decide (extract_number pfx a ≤ extract_number pfx b))) := by
      apply List.sorted_mergeSort
      · intro a b c h1 h2
        exact decide_eq_true (le_trans (of_decide_eq_true h1) (of_decide_eq_true h2))
      · intro a b
        rcases le_total (extract_number pfx a) (extract_number pfx b) with h | h <;>
          simp [h]
    exact hb.imp (fun h => of_decide_eq_true h)
  · intro f hf g
    rw [extract_number_of_none hf]
    exact extract_number_ge pfx g

/-- C8 counterexample: `"testabc.fasta"` does not match the
prefix + trailing-number + `.fasta` pattern, yet `FastaDataset` keeps it
(it starts with the prefix and ends in `.fasta`). -/
theorem fastaDatasetFiles_counterexample :
    fastaDatasetFiles ["testabc.fasta".toList] "test".toList =
      ["testabc.fasta".toList] ∧
    ¬ matchesNumberedPattern "test".toList "testabc.fasta".toList := by
  constructor
  · have hfil : (["testabc.fasta".toList]).filter
        (fun f => "test".toList.isPrefixOf f && fastaExt.isSuffixOf f) =
        ["testabc.fasta".toList] := by decide
    unfold fastaDatasetFiles
    rw [hfil, List.mergeSort_singleton]
  · rintro ⟨mid, heq, hne, hdig⟩
    have heq2 : "test".toList ++ (mid ++ fastaExt) =
        "test".toList ++ ("abc".toList ++ fastaExt) := by
      rw [← List.append_assoc, ← heq]
      decide
    have hmid : mid = "abc".toList :=
      List.append_cancel_right (List.append_cancel_left heq2)
    have hdigA : ('a' : Char).isDigit = true := by
      apply hdig
      rw [hmid]
      decide
    exact absurd hdigA (by decide)

/-- Witness for `fastaDatasetFiles_spec` at a concrete directory
listing. -/
theorem fastaDatasetFiles_spec_witness :
    "test2.fasta".toList ∈
      fastaDatasetFiles ["other.fasta".toList, "test2.fasta".toList] "test".toList ∧
    extract_number "test".toList "testabc.fasta".toList ≤
      extract_number "test".toList "test2.fasta".toList :=
  ⟨((fastaDatasetFiles_spec ["other.fasta".toList, "test2.fasta".toList]
      "test".toList).2.1 _).mpr ⟨by decide, by decide, by decide⟩,
   (fastaDatasetFiles_spec ["other.fasta".toList, "test2.fasta".toList]
      "test".toList).2.2.2 _ (by decide) _⟩

/-! ### FastaCodec: claim C1 -/

theorem pyIsSpace_of_isSpaceOrTab {c : Char} (h : isSpaceOrTab c = true) :
    pyIsSpace c = true := by
  simp only [isSpaceOrTab, Bool.or_eq_true, decide_eq_true_eq] at h
  simp only [pyIsSpace, Bool.or_eq_true, decide_eq_true_eq]
  tauto

theorem removeSpaceTab_eq_self {s : List Char}
    (h : ∀ c ∈ s, pyIsSpace c = false) : removeSpaceTab s = s := by
  unfold removeSpaceTab
  apply List.filter_eq_self.mpr
  intro c hc
  rcases Bool.eq_false_or_eq_true (isSpaceOrTab c) with hb | hb
  · have hsp := pyIsSpace_of_isSpaceOrTab hb
    rw [h c hc] at hsp
    exact Bool.noConfusion hsp
  · rw [hb]
    rfl

theorem dropWhile_eq_self_of {p : Char → Bool} :
    ∀ {l : List Char}, (∀ c ∈ l, p c = false) → l.dropWhile p = l
  | [], _ => rfl
  | a :: t, h => by
    rw [List.dropWhile_cons, h a (List.mem_cons_self a t)]
    simp

theorem pyStrip_eq_self {s : List Char}
    (h : ∀ c ∈ s, pyIsSpace c = false) : pyStrip s = s := by
  unfold pyStrip
  rw [dropWhile_eq_self_of h,
    dropWhile_eq_self_of (fun c hc => h c (List.mem_reverse.mp hc)),
    List.reverse_reverse]

theorem splitLines_append_newline :
    ∀ {l : List Char} (rest : List Char), (∀ c ∈ l, c ≠ '\n') →
      splitLines (l ++ '\n' :: rest) = l :: splitLines rest
  | [], rest, _ => by simp [splitLines]
  | c :: t, rest, h => by
    have hc : c ≠ '\n' := h c (List.mem_cons_self c t)
    have ih := splitLines_append_newline rest
      (fun x hx => h x (List.mem_cons_of_mem c hx))
    simp only [List.cons_append, splitLines, if_neg hc, List.append_eq, ih]

theorem chunksF_flatten {w : Nat} (hw : 1 ≤ w) :
    ∀ (fuel : Nat) (s : List Char), s.length ≤ fuel →
      (chunksF fuel w s).flatten = s
  | 0, s, h => by
    rw [List.length_eq_zero.mp (Nat.le_zero.mp h)]
    rfl
  | fuel + 1, [], _ => rfl
  | fuel + 1, c :: rest, h => by
    simp only [chunksF, List.flatten_cons]
    rw [chunksF_flatten hw fuel ((c :: rest).drop w)
      (by simp only [List.length_drop, List.length_cons]
          simp only [List.length_cons] at h
          omega)]
    exact List.take_append_drop w (c :: rest)

theorem chunks_flatten {w : Nat} (hw : 1 ≤ w) (s : List Char) :
    (chunks w s).flatten = s :=
  chunksF_flatten hw s.length s (Nat.le_refl _)

theorem chunksF_mem {w : Nat} (hw : 1 ≤ w) :
    ∀ (fuel : Nat) (s c : List Char), c ∈ chunksF fuel w s →
      c ≠ [] ∧ ∀ x ∈ c, x ∈ s
  | 0, s, c, h => by
    simp only [chunksF] at h
    exact absurd h (List.not_mem_nil c)
  | fuel + 1, [], c, h => by
    simp only [chunksF] at h
    exact absurd h (List.not_mem_nil c)
  | fuel + 1, a :: rest, c, h => by
    simp only [chunksF, List.mem_cons] at h
    rcases h with rfl | h
    · constructor
      · cases w with
        | zero => omega
        | succ v => simp [List.take_succ_cons]
      · intro x hx
        exact List.mem_of_mem_take hx
    · obtain ⟨hne, hsub⟩ := chunksF_mem hw fuel ((a :: rest).drop w) c h
      exact ⟨hne, fun x hx => List.mem_of_mem_drop (hsub x hx)⟩

theorem chunks_mem {w : Nat} (hw : 1 ≤ w) {s c : List Char}
    (h : c ∈ chunks w s) : c ≠ [] ∧ ∀ x ∈ c, x ∈ s :=
  chunksF_mem hw s.length s c h

theorem splitLines_chunkLines :
    ∀ (cs : List (List Char)) (rest : List Char),
      (∀ c ∈ cs, ∀ x ∈ c, x ≠ '\n') →
      splitLines ((cs.map (fun c => c ++ ['\n'])).flatten ++ rest) =
        cs ++ splitLines rest
  | [], rest, _ => by simp
  | c :: cs, rest, h => by
    simp only [List.map_cons, List.flatten_cons]
    have hassoc : (c ++ ['\n']) ++ ((cs.map (fun c => c ++ ['\n'])).flatten ++ rest) =
        c ++ '\n' :: ((cs.map (fun c => c ++ ['\n'])).flatten ++ rest) := by
      simp
    rw [List.append_assoc, hassoc,
      splitLines_append_newline _ (h c (List.mem_cons_self c cs)),
      splitLines_chunkLines cs rest (fun d hd => h d (List.mem_cons_of_mem c hd)),
      List.cons_append]

theorem parseLines_append_nil (lines : List (List Char)) :
    ∀ (hdr : Option (List Char)) (acc : List (List Char)),
      parseLines hdr acc (lines ++ [[]]) = parseLines hdr acc lines := by
  induction lines with
  | nil =>
    intro hdr acc
    simp [parseLines]
  | cons line lines ih =>
    intro hdr acc
    rw [List.cons_append]
    by_cases hnil : line = []
    · simp only [parseLines, if_pos hnil, ih]
    · by_cases hhd : line.head? = some '>'
      · simp only [parseLines, if_neg hnil, if_pos hhd, ih]
      · simp only [parseLines, if_neg hnil, if_neg hhd, ih]

theorem parseLines_chunkLines (cs : List (List Char)) :
    ∀ (hdr : List Char) (acc rest : List (List Char)),
      (∀ c ∈ cs, c ≠ [] ∧ c.head? ≠ some '>' ∧ pyStrip c = c) →
      parseLines (some hdr) acc (cs ++ rest) =
        parseLines (some hdr) (acc ++ cs) rest := by
  induction cs with
  | nil =>
    intro hdr acc rest _
    simp
  | cons c cs ih =>
    intro hdr acc rest h
    obtain ⟨hne, hhd, hstrip⟩ := h c (List.mem_cons_self c cs)
    rw [List.cons_append]
    simp only [parseLines, if_neg hne, if_neg hhd]
    rw [hstrip, ih hdr (acc ++ [c]) rest
      (fun d hd => h d (List.mem_cons_of_mem c hd))]
    congr 1
    simp

theorem parseLines_records {w : Nat} (hw : 1 ≤ w) :
    ∀ (records : List (List Char × List Char)) (hdr : List Char)
      (acc : List (List Char)),
      (∀ p ∈ records, goodHeader p.1 ∧ goodSeq p.2) →
      parseLines (some hdr) acc
        ((records.map (fun p => ('>' :: p.1) :: chunks w p.2)).flatten) =
        (hdr, removeSpaceTab acc.flatten) :: records := by
  intro records
  induction records with
  | nil =>
    intro hdr acc _
    simp [parseLines, flushRecord]
  | cons p ps ih =>
    intro hdr acc h
    obtain ⟨⟨hh1, hh2⟩, hs1, hs2⟩ := h p (List.mem_cons_self p ps)
    have hchunk : ∀ c ∈ chunks w p.2, c ≠ [] ∧ c.head? ≠ some '>' ∧ pyStrip c = c := by
      intro c hc
      obtain ⟨hne, hsub⟩ := chunks_mem hw hc
      refine ⟨hne, ?_, pyStrip_eq_self (fun x hx => hs1 x (hsub x hx))⟩
      cases c with
      | nil => exact absurd rfl hne
      | cons x t =>
        intro hcon
        have hx : x = '>' := Option.some.inj hcon
        exact hs2 (hx ▸ hsub x (List.mem_cons_self x t))
    simp only [List.map_cons, List.flatten_cons, List.cons_append]
    have hne : ('>' :: p.1) ≠ ([] : List Char) := List.cons_ne_nil _ _
    simp only [parseLines, if_neg hne, if_pos rfl]
    have hdrop : pyStrip (('>' :: p.1).drop 1) = p.1 := by
      simpa using hh1
    rw [hdrop, parseLines_chunkLines _ p.1 [] _ hchunk, List.nil_append,
      ih p.1 (chunks w p.2) (fun q hq => h q (List.mem_cons_of_mem p hq))]
    have hclean : removeSpaceTab (chunks w p.2).flatten = p.2 := by
      rw [chunks_flatten hw]
      exact removeSpaceTab_eq_self hs1
    rw [hclean]
    simp [flushRecord]

theorem splitLines_write {w : Nat} (hw : 1 ≤ w) :
    ∀ records : List (List Char × List Char),
      (∀ p ∈ records, goodHeader p.1 ∧ goodSeq p.2) →
      splitLines (write_fasta records w) =
        (records.map (fun p => ('>' :: p.1) :: chunks w p.2)).flatten ++ [[]] := by
  intro records
  induction records with
  | nil => intro _; rfl
  | cons p ps ih =>
    intro h
    obtain ⟨⟨hh1, hh2⟩, hs1, hs2⟩ := h p (List.mem_cons_self p ps)
    have hnl : ∀ c ∈ ('>' :: p.1), c ≠ '\n' := by
      intro c hc
      rcases List.mem_cons.mp hc with rfl | hc
      · decide
      · exact fun he => hh2 (he ▸ hc)
    have hchunknl : ∀ c ∈ chunks w p.2, ∀ x ∈ c, x ≠ '\n' := by
      intro c hc x hx he
      have := hs1 x ((chunks_mem hw hc).2 x hx)
      rw [he] at this
      simp [pyIsSpace] at this
    have htext : write_fasta (p :: ps) w =
        ('>' :: p.1) ++ '\n' ::
          (((chunks w p.2).map (fun c => c ++ ['\n'])).flatten ++ write_fasta ps w) := by
      unfold write_fasta recordText
      simp
    rw [htext, splitLines_append_newline _ hnl,
      splitLines_chunkLines _ _ hchunknl, ih
        (fun q hq => h q (List.mem_cons_of_mem p hq))]
    simp

/-- C1 (amended): parsing the serialization of a record collection at any
wrap width `w ≥ 1` returns the collection unchanged, provided every
header is strip-invariant and newline-free and every sequence contains no
whitespace character and no `'>'`.  (The original claim, which allowed
whitespace embedded inside sequences, is refuted by
`read_write_fasta_counterexample`.) -/
theorem read_write_fasta_roundtrip (records : List (List Char × List Char))
    (w : Nat) (hw : 1 ≤ w)
    (hgood : ∀ p ∈ records, goodHeader p.1 ∧ goodSeq p.2) :
    read_fasta (write_fasta records w) = records := by
  cases records with
  | nil => rfl
  | cons p ps =>
    obtain ⟨⟨hh1, hh2⟩, hs1, hs2⟩ := hgood p (List.mem_cons_self p ps)
    unfold read_fasta
    rw [splitLines_write hw _ hgood, parseLines_append_nil]
    simp only [List.map_cons, List.flatten_cons, List.cons_append]
    have hne : ('>' :: p.1) ≠ ([] : List Char) := List.cons_ne_nil _ _
    simp only [parseLines, if_neg hne]
    rw [if_pos (show ('>' :: p.1).head? = some '>' from rfl)]
    have hchunk : ∀ c ∈ chunks w p.2, c ≠ [] ∧ c.head? ≠ some '>' ∧ pyStrip c = c := by
      intro c hc
      obtain ⟨hcne, hsub⟩ := chunks_mem hw hc
      refine ⟨hcne, ?_, pyStrip_eq_self (fun x hx => hs1 x (hsub x hx))⟩
      cases c with
      | nil => exact absurd rfl hcne
      | cons x t =>
        intro hcon
        have hx : x = '>' := Option.some.inj hcon
        exact hs2 (hx ▸ hsub x (List.mem_cons_self x t))
    have hdrop : pyStrip (('>' :: p.1).drop 1) = p.1 := by
      simpa using hh1
    rw [hdrop, parseLines_chunkLines _ p.1 [] _ hchunk]
    simp only [List.nil_append]
    rw [parseLines_records hw ps p.1 (chunks w p.2)
        (fun q hq => hgood q (List.mem_cons_of_mem p hq))]
    have hclean : removeSpaceTab (chunks w p.2).flatten = p.2 := by
      rw [chunks_flatten hw]
      exact removeSpaceTab_eq_self hs1
    rw [hclean]

/-- C1 counterexample: the record `("h", "A B")` satisfies the original
claim's hypotheses (no newlines anywhere, no leading or trailing
whitespace in the sequence), yet the round-trip at width 80 loses the
embedded space: the parse of the serialization is `[("h", "AB")]`. -/
theorem read_write_fasta_counterexample :
    (∀ c ∈ ['h'], c ≠ '\n') ∧ (∀ c ∈ ['A', ' ', 'B'], c ≠ '\n') ∧
    pyStrip ['A', ' ', 'B'] = ['A', ' ', 'B'] ∧ 1 ≤ 80 ∧
    read_fasta (write_fasta [(['h'], ['A', ' ', 'B'])] 80) ≠
      [(['h'], ['A', ' ', 'B'])] := by
  decide

/-- Witness for `read_write_fasta_roundtrip` at a concrete two-record
collection and width 3. -/
theorem read_write_fasta_roundtrip_witness :
    read_fasta (write_fasta
        [(['h', 'd'], ['A', 'C', 'G', 'T', 'A']), (['h', '2'], [])] 3) =
      [(['h', 'd'], ['A', 'C', 'G', 'T', 'A']), (['h', '2'], [])] :=
  read_write_fasta_roundtrip _ 3 (by decide) (by
    intro p hp
    rcases List.mem_cons.mp hp with rfl | hp
    · exact ⟨⟨by decide, by decide⟩, ⟨by decide, by decide⟩⟩
    rcases List.mem_cons.mp hp with rfl | hp
    · exact ⟨⟨by decide, by decide⟩, ⟨by decide, by decide⟩⟩
    · exact absurd hp (List.not_mem_nil p))

end GA
